import Mathlib

/-!
Verification of the dairy-ledger logic of `app.py`: the due carry-forward
calculator (`get_previous_dairy_due` / `add_dairy_entry`), the debt
settlement allocator (`clear_dues`), and the daily summary aggregator
(`dairy_daily_summary`).  The persisted `dairy_entry` table is embedded as a
`List DairyEntry` (rows in storage order, primary keys in `id`); monetary
floats are modelled as exact rationals, calendar dates as integers (day
numbers, so `date - 1` is the previous day) and `created_at` timestamps as
naturals.
-/

namespace MatriDairies

/-- One row of the `dairy_entry` table (`class DairyEntry` in `app.py`). -/
structure DairyEntry where
  id : Nat
  date : Int
  m_name : String
  item : String
  weight : Rat
  unit : String
  price_per_unit : Rat
  cost : Rat
  paid : Rat
  due : Rat
  created_at : Nat
  deriving DecidableEq

/-- Category of a `flash(...)` call in the routes. -/
inductive FlashCategory where
  | success
  | info
  deriving DecidableEq

/-- The flash messages the modelled routes can emit. -/
inductive FlashMsg where
  | entryAdded
  | noEntriesFound (d : Int)
  | summaryGenerated (d : Int)
  | duesUpdated (m : String)
  deriving DecidableEq

/-- A `flash(message, category)` call. -/
structure Flash where
  msg : FlashMsg
  category : FlashCategory
  deriving DecidableEq

/-- Entries of a given calendar date: `DairyEntry.query.filter_by(date=d)`. -/
def entriesOn (db : List DairyEntry) (d : Int) : List DairyEntry :=
  db.filter (fun e => e.date == d)

/-- Entries of a given date, merchant and item, in storage order: the filter
`date == d, m_name == m, item == i` used by `get_previous_dairy_due` and by
the grouped subquery of `dairy_daily_summary`. -/
def groupOn (db : List DairyEntry) (d : Int) (m i : String) : List DairyEntry :=
  db.filter (fun e => e.date == d && e.m_name == m && e.item == i)

/-- `order_by(created_at.desc()).first()`: the first row of a stable
descending sort by `created_at`, i.e. the earliest-stored row among those
with maximal `created_at`. -/
def latestByCreated : List DairyEntry → Option DairyEntry
  | [] => none
  | e :: rest =>
    match latestByCreated rest with
    | none => some e
    | some c => if e.created_at < c.created_at then some c else some e

/-- `get_previous_dairy_due` of `app.py`: the `due` of the latest-created
entry of the same merchant and item dated exactly one day earlier, `0.0`
when no such entry exists. -/
def get_previous_dairy_due (db : List DairyEntry) (current_date : Int)
    (m_name item : String) : Rat :=
  match latestByCreated (groupOn db (current_date - 1) m_name item) with
  | some prev_entry => prev_entry.due
  | none => 0

/-- The POST branch of `add_dairy_entry`: computes
`cost = price_per_unit * weight`, `current_due = (previous_due + cost) - paid`
and appends the new row.  `newId` is the fresh primary key and `now` the
`created_at` timestamp assigned by the store. -/
def add_dairy_entry (db : List DairyEntry) (entry_date : Int) (m_name item : String)
    (weight : Rat) (unit : String) (price_per_unit paid : Rat)
    (newId : Nat) (now : Nat) : List DairyEntry :=
  let cost := price_per_unit * weight
  let previous_due := get_previous_dairy_due db entry_date m_name item
  let current_due := (previous_due + cost) - paid
  db ++ [{ id := newId, date := entry_date, m_name := m_name, item := item,
           weight := weight, unit := unit, price_per_unit := price_per_unit,
           cost := cost, paid := paid, due := current_due, created_at := now }]

/-- The distinct `(m_name, item)` pairs among entries of date `d`: the
`group_by(m_name, item)` of the summary subquery. -/
def pairsOnDate (db : List DairyEntry) (d : Int) : List (String × String) :=
  ((entriesOn db d).map (fun e => (e.m_name, e.item))).dedup

/-- `func.max(created_at)` of the `(d, m, i)` group (the summary subquery's
`latest_created_at` column; the groups it is used for are nonempty). -/
def latestCreatedFor (db : List DairyEntry) (d : Int) (m i : String) : Nat :=
  ((groupOn db d m i).map (fun e => e.created_at)).foldl max 0

/-- The `latest_dues_for_day` query of `dairy_daily_summary`: sum of `due`
over all rows (of any date) whose `(m_name, item)` pair occurs on date `d`
and whose `created_at` equals that pair's maximal `created_at` on date `d`. -/
def latest_dues_for_day (db : List DairyEntry) (d : Int) : Rat :=
  ((db.filter (fun e =>
      decide ((e.m_name, e.item) ∈ pairsOnDate db d) &&
      e.created_at == latestCreatedFor db d e.m_name e.item)).map (fun e => e.due)).sum

/-- The `report_data` dict built by `dairy_daily_summary`. -/
structure DairyReport where
  date : Int
  total_cost_dairy : Rat
  total_paid_dairy : Rat
  total_cash_income : Rat
  profit_loss : Rat
  total_dues_today : Rat
  deriving DecidableEq

/-- The POST branch of `dairy_daily_summary`: `none` plus an info flash when
no entry has the report date, otherwise the aggregated report plus a success
flash. -/
def dairy_daily_summary (db : List DairyEntry) (report_date : Int)
    (total_cash_income : Rat) : Option DairyReport × Flash :=
  if (entriesOn db report_date).isEmpty then
    (none, ⟨FlashMsg.noEntriesFound report_date, FlashCategory.info⟩)
  else
    let total_cost_dairy := ((entriesOn db report_date).map (fun e => e.cost)).sum
    let total_paid_dairy := ((entriesOn db report_date).map (fun e => e.paid)).sum
    let profit_loss := total_cash_income - total_cost_dairy
    (some { date := report_date, total_cost_dairy := total_cost_dairy,
            total_paid_dairy := total_paid_dairy,
            total_cash_income := total_cash_income, profit_loss := profit_loss,
            total_dues_today := latest_dues_for_day db report_date },
     ⟨FlashMsg.summaryGenerated report_date, FlashCategory.success⟩)

/-- Date order used by `order_by(DairyEntry.date)`. -/
def dateLe (a b : DairyEntry) : Prop :=
  a.date ≤ b.date

instance : DecidableRel dateLe :=
  fun a b => inferInstanceAs (Decidable (a.date ≤ b.date))

instance : IsTotal DairyEntry dateLe :=
  ⟨fun a b => Int.le_total a.date b.date⟩

instance : IsTrans DairyEntry dateLe :=
  ⟨fun _ _ _ h h2 => le_trans h h2⟩

/-- The selection of `clear_dues`:
`filter_by(m_name=m).filter(due > 0).order_by(date)` — the merchant's rows
with positive due, stably sorted ascending by date. -/
def selectDueEntries (db : List DairyEntry) (m : String) : List DairyEntry :=
  List.insertionSort dateLe (db.filter (fun e => e.m_name == m && decide (0 < e.due)))

/-- `entry.paid += pay; entry.due -= pay` applied to one row. -/
def applyPayment (e : DairyEntry) (pay : Rat) : DairyEntry :=
  { e with paid := e.paid + pay, due := e.due - pay }

/-- The allocation loop of `clear_dues`, recorded as the list of
`(row id, amount applied)` mutations it performs: visits the rows in order,
pays `min due remaining` to each, and stops when `remaining ≤ 0` or the rows
run out. -/
def settleLoop : Rat → List DairyEntry → List (Nat × Rat)
  | _, [] => []
  | remaining, e :: rest =>
    if remaining ≤ 0 then []
    else (e.id, min e.due remaining) :: settleLoop (remaining - min e.due remaining) rest

/-- The amount a mutation list applies to the row with primary key `i`. -/
def appliedTo (pays : List (Nat × Rat)) (i : Nat) : Rat :=
  (pays.lookup i).getD 0

/-- Commit of the loop's mutations: each row receives the payment recorded
against its primary key, all other rows are unchanged. -/
def applyPays (pays : List (Nat × Rat)) (db : List DairyEntry) : List DairyEntry :=
  db.map (fun e =>
    match pays.lookup e.id with
    | some p => applyPayment e p
    | none => e)

/-- The table state after the POST branch of `clear_dues`. -/
def clear_dues_post (db : List DairyEntry) (m_name : String) (amount_paid : Rat) :
    List DairyEntry :=
  applyPays (settleLoop amount_paid (selectDueEntries db m_name)) db

/-- The whole POST branch of `clear_dues`: the new table state, the flash
message, and the redirect target. -/
def clear_dues (db : List DairyEntry) (m_name : String) (amount_paid : Rat) :
    List DairyEntry × Flash × String :=
  (clear_dues_post db m_name amount_paid,
   ⟨FlashMsg.duesUpdated m_name, FlashCategory.success⟩, "clear_dues")

/-- A merchant's total outstanding due: sum of `due` over the merchant's
rows with `due > 0`. -/
def totalDue (db : List DairyEntry) (m : String) : Rat :=
  ((db.filter (fun e => e.m_name == m && decide (0 < e.due))).map (fun e => e.due)).sum

/-- Row lookup by primary key. -/
def findById (db : List DairyEntry) (i : Nat) : Option DairyEntry :=
  db.find? (fun e => e.id == i)

/-- Sum of `due` over the first `j` rows of a selection. -/
def duesBefore (es : List DairyEntry) (j : Nat) : Rat :=
  ((es.map (fun e => e.due)).take j).sum

/-- Modelled from the spec (§4.2): the settlement loop as the spec words it —
"Iterates oldest-first; for each entry, applies `pay = min(entry.due,
remaining)`, sets `entry.paid += pay`, `entry.due -= pay`, decrements
`remaining -= pay`; stops iterating once `remaining <= 0` or entries are
exhausted."  Returns the processed entry list and the leftover amount. -/
def settleSpecLoop : Rat → List DairyEntry → List DairyEntry × Rat
  | remaining, [] => ([], remaining)
  | remaining, e :: rest =>
    if remaining ≤ 0 then (e :: rest, remaining)
    else
      let pay := min e.due remaining
      let result := settleSpecLoop (remaining - pay) rest
      (applyPayment e pay :: result.1, result.2)

/-- Modelled from the spec (§4.3): the `due` of the latest-created entry of
pair `(m, i)` on date `d`, `0` when the pair has no entry that day. -/
def specLatestDueOnDate (db : List DairyEntry) (d : Int) (m i : String) : Rat :=
  match latestByCreated (groupOn db d m i) with
  | some e => e.due
  | none => 0

/-- `p` is the entry of `(m, i)` dated `d - 1` with the strictly latest
`created_at` (the claims' "prior-day entry with the latest created_at"). -/
def isLatestPrior (db : List DairyEntry) (d : Int) (m i : String) (p : DairyEntry) : Prop :=
  p ∈ groupOn db (d - 1) m i ∧
    ∀ q ∈ groupOn db (d - 1) m i, q ≠ p → q.created_at < p.created_at

instance (db : List DairyEntry) (d : Int) (m i : String) (p : DairyEntry) :
    Decidable (isLatestPrior db d m i p) :=
  inferInstanceAs (Decidable (_ ∧ _))

/-! Concrete table states used to instantiate the theorems below.  They
realise the worked examples of the spec: merchant "A" buys milk two days
running, leaving dues of 10 and 30. -/

/-- Day 1: cost 60, paid 50, due 10. -/
def entryW1 : DairyEntry :=
  { id := 1, date := 1, m_name := "A", item := "Milk", weight := 1, unit := "kg",
    price_per_unit := 60, cost := 60, paid := 50, due := 10, created_at := 1 }

/-- Day 2: cost 60, paid 30, carried due 10 + 60 - 40 = 30. -/
def entryW2 : DairyEntry :=
  { id := 2, date := 2, m_name := "A", item := "Milk", weight := 1, unit := "kg",
    price_per_unit := 60, cost := 60, paid := 30, due := 30, created_at := 2 }

/-- The two-entry ledger of the spec's settlement example. -/
def dbW : List DairyEntry := [entryW1, entryW2]

/-- A row whose creation already overpaid: due is negative. -/
def entryNeg : DairyEntry :=
  { id := 1, date := 1, m_name := "A", item := "Milk", weight := 1, unit := "kg",
    price_per_unit := 60, cost := 60, paid := 65, due := -5, created_at := 1 }

/-- A ledger holding a negative-due row. -/
def dbNeg : List DairyEntry := [entryNeg]

/-- One due row of 3 for merchant "A". -/
def db81 : List DairyEntry :=
  [{ id := 1, date := 1, m_name := "A", item := "Milk", weight := 1, unit := "kg",
     price_per_unit := 60, cost := 60, paid := 57, due := 3, created_at := 1 }]

/-- One due row of 10 for merchant "A". -/
def db82 : List DairyEntry :=
  [{ id := 1, date := 1, m_name := "A", item := "Milk", weight := 1, unit := "kg",
     price_per_unit := 60, cost := 60, paid := 50, due := 10, created_at := 1 }]

/-- Day-1 rows: two superseding entries of ("A", "Milk") and one of
("B", "Curd"), for the summary aggregation. -/
def dbS : List DairyEntry :=
  [{ id := 1, date := 1, m_name := "A", item := "Milk", weight := 1, unit := "kg",
     price_per_unit := 60, cost := 60, paid := 50, due := 5, created_at := 1 },
   { id := 2, date := 1, m_name := "A", item := "Milk", weight := 1, unit := "kg",
     price_per_unit := 60, cost := 60, paid := 50, due := 12, created_at := 3 },
   { id := 3, date := 1, m_name := "B", item := "Curd", weight := 1, unit := "kg",
     price_per_unit := 45, cost := 45, paid := 40, due := 7, created_at := 2 }]

/-! ### Basic lemmas about the commit of the settlement mutations -/

theorem applyPayment_zero (e : DairyEntry) : applyPayment e 0 = e := by
  simp [applyPayment]

theorem applyPays_eq_map (pays : List (Nat × Rat)) (db : List DairyEntry) :
    applyPays pays db = db.map (fun e => applyPayment e (appliedTo pays e.id)) := by
  unfold applyPays appliedTo
  refine List.map_congr_left (fun e _ => ?_)
  cases h : pays.lookup e.id with
  | none => simp [h, applyPayment_zero]
  | some p => simp [h]

theorem clear_dues_post_eq_map (db : List DairyEntry) (m : String) (a : Rat) :
    clear_dues_post db m a =
      db.map (fun e => applyPayment e (appliedTo (settleLoop a (selectDueEntries db m)) e.id)) := by
  rw [clear_dues_post, applyPays_eq_map]

theorem clear_dues_post_length (db : List DairyEntry) (m : String) (a : Rat) :
    (clear_dues_post db m a).length = db.length := by
  rw [clear_dues_post_eq_map]
  exact List.length_map _ _

theorem clear_dues_post_getElem (db : List DairyEntry) (m : String) (a : Rat)
    (j : Nat) (hj : j < db.length) (hj2 : j < (clear_dues_post db m a).length) :
    (clear_dues_post db m a)[j] =
      applyPayment db[j] (appliedTo (settleLoop a (selectDueEntries db m)) db[j].id) := by
  simp [clear_dues_post_eq_map]

/-! ### The settlement loop: basic shape and a closed form for the amount
applied to each selected row -/

theorem settleLoop_nonpos {a : Rat} (ha : a ≤ 0) : ∀ es, settleLoop a es = []
  | [] => rfl
  | e :: rest => by simp [settleLoop, ha]

theorem appliedTo_nil (x : Nat) : appliedTo [] x = 0 := rfl

theorem appliedTo_cons (k : Nat) (v : Rat) (ps : List (Nat × Rat)) (x : Nat) :
    appliedTo ((k, v) :: ps) x = if x = k then v else appliedTo ps x := by
  by_cases h : x = k
  · simp [appliedTo, List.lookup_cons, h]
  · have hb : (x == k) = false := beq_eq_false_iff_ne.mpr h
    simp [appliedTo, List.lookup_cons, hb, h]

theorem lookup_settleLoop_eq_none (x : Nat) :
    ∀ (es : List DairyEntry) (a : Rat), (∀ e ∈ es, e.id ≠ x) →
      (settleLoop a es).lookup x = none := by
  intro es
  induction es with
  | nil => intro a _; rfl
  | cons e rest ih =>
    intro a hx
    by_cases ha : a ≤ 0
    · simp [settleLoop, ha]
    · have hb : (x == e.id) = false :=
        beq_eq_false_iff_ne.mpr (fun h => hx e (List.mem_cons_self e rest) h.symm)
      simp only [settleLoop, if_neg ha, List.lookup_cons, hb]
      exact ih _ (fun f hf => hx f (List.mem_cons_of_mem _ hf))

theorem appliedTo_settleLoop_of_not_mem (es : List DairyEntry) (a : Rat) (x : Nat)
    (hx : ∀ e ∈ es, e.id ≠ x) : appliedTo (settleLoop a es) x = 0 := by
  simp [appliedTo, lookup_settleLoop_eq_none x es a hx]

/-! ### Partial sums of dues along a selection -/

theorem duesBefore_zero (es : List DairyEntry) : duesBefore es 0 = 0 := rfl

theorem duesBefore_succ (es : List DairyEntry) (j : Nat) (hj : j < es.length) :
    duesBefore es (j + 1) = duesBefore es j + es[j].due := by
  unfold duesBefore
  rw [List.sum_take_succ _ j (by simpa using hj)]
  simp

theorem duesBefore_cons_succ (e : DairyEntry) (rest : List DairyEntry) (j : Nat) :
    duesBefore (e :: rest) (j + 1) = e.due + duesBefore rest j := by
  simp [duesBefore]

theorem duesBefore_nonneg (es : List DairyEntry) (hd : ∀ e ∈ es, 0 ≤ e.due) (j : Nat) :
    0 ≤ duesBefore es j := by
  unfold duesBefore
  refine List.sum_nonneg ?_
  intro x hx
  obtain ⟨e, he, rfl⟩ := List.mem_map.mp (List.take_subset _ _ hx)
  exact hd e he

theorem appliedTo_settleLoop (es : List DairyEntry) (hd : ∀ e ∈ es, 0 < e.due)
    (hn : (es.map (fun e => e.id)).Nodup) :
    ∀ (a : Rat) (j : Nat) (hj : j < es.length),
      appliedTo (settleLoop a es) es[j].id
        = min es[j].due (max 0 (a - duesBefore es j)) := by
  induction es with
  | nil => intro a j hj; exact absurd hj (by simp)
  | cons e rest ih =>
    intro a j hj
    have hd0 : (0:Rat) < e.due := hd e (List.mem_cons_self e rest)
    have hdr : ∀ f ∈ rest, (0:Rat) < f.due := fun f hf => hd f (List.mem_cons_of_mem _ hf)
    have hn' : (e.id :: rest.map (fun f => f.id)).Nodup := hn
    have hid : e.id ∉ rest.map (fun f => f.id) := (List.nodup_cons.mp hn').1
    have hnr : (rest.map (fun f => f.id)).Nodup := (List.nodup_cons.mp hn').2
    by_cases ha : a ≤ 0
    · rw [settleLoop_nonpos ha]
      have hjd : (0:Rat) ≤ (e :: rest)[j].due := le_of_lt (hd _ (List.getElem_mem hj))
      have hS : 0 ≤ duesBefore (e :: rest) j :=
        duesBefore_nonneg _ (fun f hf => le_of_lt (hd f hf)) j
      have hmax : max 0 (a - duesBefore (e :: rest) j) = 0 := max_eq_left (by linarith)
      rw [hmax, appliedTo_nil, min_eq_right hjd]
    · have ha' : (0:Rat) < a := lt_of_not_le ha
      simp only [settleLoop, if_neg ha]
      cases j with
      | zero =>
        rw [List.getElem_cons_zero, appliedTo_cons, if_pos rfl, duesBefore_zero, sub_zero,
          max_eq_right (le_of_lt ha')]
      | succ k =>
        have hk : k < rest.length := by simpa using hj
        have hmem : rest[k] ∈ rest := List.getElem_mem hk
        have hne : rest[k].id ≠ e.id := by
          intro hcontra
          exact hid (hcontra ▸ List.mem_map_of_mem _ hmem)
        simp only [List.getElem_cons_succ, appliedTo_cons, if_neg hne]
        rw [ih hdr hnr (a - min e.due a) k hk, duesBefore_cons_succ]
        have hS : 0 ≤ duesBefore rest k :=
          duesBefore_nonneg _ (fun f hf => le_of_lt (hdr f hf)) k
        rcases le_total e.due a with hcase | hcase
        · rw [min_eq_left hcase]
          ring_nf
        · rw [min_eq_right hcase]
          have h1 : max 0 (a - a - duesBefore rest k) = 0 := max_eq_left (by linarith)
          have h2 : max 0 (a - (e.due + duesBefore rest k)) = 0 := max_eq_left (by linarith)
          rw [h1, h2]

/-! ### The selection of `clear_dues` -/

theorem mem_selectDueEntries {db : List DairyEntry} {m : String} {e : DairyEntry} :
    e ∈ selectDueEntries db m ↔ e ∈ db ∧ e.m_name = m ∧ 0 < e.due := by
  simp [selectDueEntries, List.mem_insertionSort, List.mem_filter, and_assoc]

theorem selectDueEntries_perm (db : List DairyEntry) (m : String) :
    (selectDueEntries db m).Perm
      (db.filter (fun e => e.m_name == m && decide (0 < e.due))) :=
  List.perm_insertionSort _ _

theorem selectDueEntries_sorted (db : List DairyEntry) (m : String) :
    List.Sorted dateLe (selectDueEntries db m) :=
  List.sorted_insertionSort _ _

theorem selectDueEntries_due_pos {db : List DairyEntry} {m : String} :
    ∀ e ∈ selectDueEntries db m, 0 < e.due :=
  fun _ he => (mem_selectDueEntries.mp he).2.2

theorem selectDueEntries_ids_nodup {db : List DairyEntry} {m : String}
    (hnd : (db.map (fun e => e.id)).Nodup) :
    ((selectDueEntries db m).map (fun e => e.id)).Nodup := by
  have hf : ((db.filter (fun e => e.m_name == m && decide (0 < e.due))).map
      (fun e => e.id)).Nodup :=
    ((List.filter_sublist _).map _).nodup hnd
  exact (((selectDueEntries_perm db m).map _).nodup_iff).mpr hf

theorem eq_of_mem_of_id_eq {db : List DairyEntry}
    (hnd : (db.map (fun e => e.id)).Nodup) {e f : DairyEntry}
    (he : e ∈ db) (hf : f ∈ db) (h : e.id = f.id) : e = f :=
  List.inj_on_of_nodup_map hnd he hf h

theorem appliedTo_eq_zero_of_not_selected {db : List DairyEntry} {m : String}
    (hnd : (db.map (fun e => e.id)).Nodup) {e : DairyEntry} (he : e ∈ db)
    (hns : ¬(e.m_name = m ∧ 0 < e.due)) (a : Rat) :
    appliedTo (settleLoop a (selectDueEntries db m)) e.id = 0 := by
  refine appliedTo_settleLoop_of_not_mem _ _ _ ?_
  intro f hfsel hco
  have hf := mem_selectDueEntries.mp hfsel
  have : f = e := eq_of_mem_of_id_eq hnd hf.1 he hco
  exact hns (this ▸ ⟨hf.2.1, hf.2.2⟩)

theorem appliedTo_bounds {db : List DairyEntry} {m : String}
    (hnd : (db.map (fun e => e.id)).Nodup) {e : DairyEntry}
    (he : e ∈ selectDueEntries db m) (a : Rat) :
    0 ≤ appliedTo (settleLoop a (selectDueEntries db m)) e.id ∧
      appliedTo (settleLoop a (selectDueEntries db m)) e.id ≤ e.due := by
  obtain ⟨j, hj, hget⟩ := List.getElem_of_mem he
  have hcf := appliedTo_settleLoop (selectDueEntries db m) selectDueEntries_due_pos
    (selectDueEntries_ids_nodup hnd) a j hj
  rw [hget] at hcf
  rw [hcf]
  constructor
  · exact le_min (le_of_lt (mem_selectDueEntries.mp he).2.2) (le_max_left _ _)
  · exact min_le_left _ _

/-! ### Sums over filtered lists -/

theorem sum_map_filter_split (l : List DairyEntry) (p q : DairyEntry → Bool)
    (f : DairyEntry → Rat) :
    ((l.filter p).map f).sum
      = ((l.filter (fun e => p e && q e)).map f).sum
        + ((l.filter (fun e => p e && !q e)).map f).sum := by
  induction l with
  | nil => simp
  | cons x t ih =>
    cases hp : p x <;> cases hq : q x <;> simp [hp, hq, ih] <;> ring

theorem sum_map_filter_pos_as_max (l : List DairyEntry) (q : DairyEntry → Bool)
    (f : DairyEntry → Rat) :
    ((l.filter (fun e => q e && decide (0 < f e))).map f).sum
      = ((l.filter q).map (fun e => max 0 (f e))).sum := by
  induction l with
  | nil => simp
  | cons x t ih =>
    cases hq : q x
    · simp [hq, ih]
    · by_cases h0 : 0 < f x
      · simp [hq, h0, ih, max_eq_right (le_of_lt h0)]
      · simp [hq, h0, ih, max_eq_left (le_of_not_lt h0)]

/-! ### Total due over the settlement -/

theorem sum_max_settle (es : List DairyEntry) (hd : ∀ e ∈ es, 0 < e.due)
    (hn : (es.map (fun e => e.id)).Nodup) :
    ∀ (a : Rat), 0 ≤ a →
      ((es.map (fun e => max 0 (e.due - appliedTo (settleLoop a es) e.id))).sum)
        = ((es.map (fun e => e.due)).sum) - min a ((es.map (fun e => e.due)).sum) := by
  induction es with
  | nil => intro a ha; simp [min_eq_right ha]
  | cons e rest ih =>
    intro a ha
    have hd0 : (0:Rat) < e.due := hd e (List.mem_cons_self e rest)
    have hdr : ∀ f ∈ rest, (0:Rat) < f.due := fun f hf => hd f (List.mem_cons_of_mem _ hf)
    have hn' : (e.id :: rest.map (fun f => f.id)).Nodup := hn
    have hid : e.id ∉ rest.map (fun f => f.id) := (List.nodup_cons.mp hn').1
    have hnr : (rest.map (fun f => f.id)).Nodup := (List.nodup_cons.mp hn').2
    have hsr : (0:Rat) ≤ (rest.map (fun f => f.due)).sum :=
      List.sum_nonneg (by
        intro x hx
        obtain ⟨g, hg, rfl⟩ := List.mem_map.mp hx
        exact le_of_lt (hdr g hg))
    by_cases ha0 : a ≤ 0
    · have haz : a = 0 := le_antisymm ha0 ha
      subst haz
      rw [settleLoop_nonpos (le_refl 0)]
      have hz : min (0:Rat) ((e :: rest).map (fun f => f.due)).sum = 0 := by
        refine min_eq_left ?_
        simp only [List.map_cons, List.sum_cons]
        linarith
      rw [hz, sub_zero]
      refine congrArg List.sum (List.map_congr_left ?_)
      intro f hf
      rw [appliedTo_nil, sub_zero, max_eq_right (le_of_lt (hd f hf))]
    · have ha' : (0:Rat) < a := lt_of_not_le ha0
      simp only [settleLoop, if_neg ha0]
      have hp_le_due : min e.due a ≤ e.due := min_le_left _ _
      have hp_le_a : min e.due a ≤ a := min_le_right _ _
      have htail : ∀ f ∈ rest,
          max 0 (f.due - appliedTo ((e.id, min e.due a) ::
              settleLoop (a - min e.due a) rest) f.id)
            = max 0 (f.due - appliedTo (settleLoop (a - min e.due a) rest) f.id) := by
        intro f hf
        have hne : f.id ≠ e.id := by
          intro hco
          exact hid (hco ▸ List.mem_map_of_mem _ hf)
        rw [appliedTo_cons, if_neg hne]
      simp only [List.map_cons, List.sum_cons]
      rw [appliedTo_cons, if_pos rfl]
      rw [List.map_congr_left htail]
      rw [ih hdr hnr (a - min e.due a) (by linarith)]
      have hhead : max 0 (e.due - min e.due a) = e.due - min e.due a :=
        max_eq_right (by linarith)
      rw [hhead]
      rcases le_total e.due a with hcase | hcase
      · rw [min_eq_left hcase]
        rcases le_total (a - e.due) ((rest.map (fun f => f.due)).sum) with h2 | h2
        · rw [min_eq_left h2, min_eq_left (by linarith)]
          ring
        · rw [min_eq_right h2, min_eq_right (by linarith)]
          ring
      · rw [min_eq_right hcase]
        have h1 : min (a - a) ((rest.map (fun f => f.due)).sum) = 0 := by
          rw [sub_self]
          exact min_eq_left hsr
        have h2 : min a (e.due + (rest.map (fun f => f.due)).sum) = a :=
          min_eq_left (by linarith)
        rw [h1, h2]
        ring

theorem totalDue_nonneg (db : List DairyEntry) (m : String) : 0 ≤ totalDue db m := by
  refine List.sum_nonneg ?_
  intro x hx
  obtain ⟨e, he, rfl⟩ := List.mem_map.mp hx
  have := (List.mem_filter.mp he).2
  simp only [Bool.and_eq_true, decide_eq_true_eq] at this
  exact le_of_lt this.2

theorem totalDue_eq_sum_select (db : List DairyEntry) (m : String) :
    totalDue db m = ((selectDueEntries db m).map (fun e => e.due)).sum := by
  rw [totalDue]
  exact (((selectDueEntries_perm db m).map (fun e => e.due)).sum_eq).symm

theorem totalDue_settle (db : List DairyEntry) (m : String) (a : Rat)
    (hnd : (db.map (fun e => e.id)).Nodup) (ha : 0 ≤ a) :
    totalDue (clear_dues_post db m a) m = totalDue db m - min a (totalDue db m) := by
  have step1 : totalDue (clear_dues_post db m a) m
      = ((db.filter (fun e => e.m_name == m &&
          decide (0 < (applyPayment e (appliedTo (settleLoop a (selectDueEntries db m)) e.id)).due))).map
            (fun e => (applyPayment e (appliedTo (settleLoop a (selectDueEntries db m)) e.id)).due)).sum := by
    rw [totalDue, clear_dues_post_eq_map, List.filter_map]
    rw [List.map_map]
    rfl
  rw [step1]
  rw [sum_map_filter_pos_as_max db
    (fun e => e.m_name == m)
    (fun e => (applyPayment e (appliedTo (settleLoop a (selectDueEntries db m)) e.id)).due)]
  rw [sum_map_filter_split db (fun e => e.m_name == m) (fun e => decide (0 < e.due))]
  have hzero : ((db.filter (fun e => (e.m_name == m) && !decide (0 < e.due))).map
      (fun e => max 0 ((applyPayment e (appliedTo (settleLoop a (selectDueEntries db m)) e.id)).due))).sum = 0 := by
    refine List.sum_eq_zero ?_
    intro x hx
    obtain ⟨e, he, rfl⟩ := List.mem_map.mp hx
    have hm := List.mem_filter.mp he
    have hprops := hm.2
    simp only [Bool.and_eq_true, Bool.not_eq_true', decide_eq_false_iff_not, beq_iff_eq] at hprops
    have hzero : appliedTo (settleLoop a (selectDueEntries db m)) e.id = 0 :=
      appliedTo_eq_zero_of_not_selected hnd hm.1 (fun h => hprops.2 h.2) a
    rw [hzero, applyPayment_zero]
    exact max_eq_left (le_of_not_lt hprops.2)
  rw [hzero, add_zero]
  have hperm : ((db.filter (fun e => (e.m_name == m) && decide (0 < e.due))).map
        (fun e => max 0 ((applyPayment e (appliedTo (settleLoop a (selectDueEntries db m)) e.id)).due))).sum
      = (((selectDueEntries db m)).map
        (fun e => max 0 ((applyPayment e (appliedTo (settleLoop a (selectDueEntries db m)) e.id)).due))).sum :=
    (((selectDueEntries_perm db m).map _).sum_eq).symm
  rw [hperm]
  have hbody : ∀ e ∈ selectDueEntries db m,
      max 0 ((applyPayment e (appliedTo (settleLoop a (selectDueEntries db m)) e.id)).due)
        = max 0 (e.due - appliedTo (settleLoop a (selectDueEntries db m)) e.id) := by
    intro e _
    rfl
  rw [List.map_congr_left hbody]
  rw [sum_max_settle (selectDueEntries db m) selectDueEntries_due_pos
    (selectDueEntries_ids_nodup hnd) a ha]
  rw [← totalDue_eq_sum_select]

/-! ### Which rows get paid in full, which are left untouched -/

theorem duesBefore_of_length_le (es : List DairyEntry) (j : Nat) (hle : es.length ≤ j) :
    duesBefore es j = (es.map (fun e => e.due)).sum := by
  unfold duesBefore
  rw [List.take_of_length_le (by simpa using hle)]

theorem duesBefore_mono (es : List DairyEntry) (hd : ∀ e ∈ es, 0 ≤ e.due)
    {i j : Nat} (hij : i ≤ j) : duesBefore es i ≤ duesBefore es j := by
  induction j, hij using Nat.le_induction with
  | base => exact le_refl _
  | succ n hn ihn =>
    by_cases hlt : n < es.length
    · rw [duesBefore_succ es n hlt]
      have : 0 ≤ es[n].due := hd _ (List.getElem_mem hlt)
      linarith
    · rw [duesBefore_of_length_le es (n + 1) (by omega),
        ← duesBefore_of_length_le es n (by omega)]
      exact ihn

theorem duesBefore_le_sum (es : List DairyEntry) (hd : ∀ e ∈ es, 0 ≤ e.due) (j : Nat) :
    duesBefore es j ≤ (es.map (fun e => e.due)).sum := by
  rcases le_total j es.length with h | h
  · rw [← duesBefore_of_length_le es es.length (le_refl _)]
    exact duesBefore_mono es hd h
  · rw [duesBefore_of_length_le es j h]

theorem appliedTo_full (es : List DairyEntry) (hd : ∀ e ∈ es, 0 < e.due)
    (hn : (es.map (fun e => e.id)).Nodup) (a : Rat) (j : Nat) (hj : j < es.length)
    (hfull : duesBefore es (j + 1) ≤ a) :
    appliedTo (settleLoop a es) es[j].id = es[j].due := by
  rw [appliedTo_settleLoop es hd hn a j hj]
  rw [duesBefore_succ es j hj] at hfull
  have h0 : 0 ≤ duesBefore es j := duesBefore_nonneg es (fun e he => le_of_lt (hd e he)) j
  have hdj : (0:Rat) < es[j].due := hd _ (List.getElem_mem hj)
  rw [max_eq_right (by linarith)]
  exact min_eq_left (by linarith)

theorem settleLoop_structure (es : List DairyEntry) (hd : ∀ e ∈ es, 0 < e.due)
    (hn : (es.map (fun e => e.id)).Nodup) (a : Rat) :
    ∃ k, ∀ j, ∀ hj : j < es.length,
      (j < k → appliedTo (settleLoop a es) es[j].id = es[j].due) ∧
      (k < j → appliedTo (settleLoop a es) es[j].id = 0) := by
  have hd' : ∀ e ∈ es, (0:Rat) ≤ e.due := fun e he => le_of_lt (hd e he)
  by_cases hex : ∃ n, n < es.length ∧ a < duesBefore es (n + 1)
  · refine ⟨Nat.find hex, ?_⟩
    intro j hj
    have hspec := Nat.find_spec hex
    constructor
    · intro hjk
      have hmin := Nat.find_min hex hjk
      push_neg at hmin
      exact appliedTo_full es hd hn a j hj (hmin hj)
    · intro hkj
      rw [appliedTo_settleLoop es hd hn a j hj]
      have hmono : duesBefore es (Nat.find hex + 1) ≤ duesBefore es j :=
        duesBefore_mono es hd' hkj
      have hlt : a < duesBefore es j := lt_of_lt_of_le hspec.2 hmono
      rw [max_eq_left (by linarith)]
      exact min_eq_right (hd' _ (List.getElem_mem hj))
  · push_neg at hex
    refine ⟨es.length, ?_⟩
    intro j hj
    refine ⟨fun _ => appliedTo_full es hd hn a j hj (hex j hj), fun h => absurd hj (by omega)⟩

/-! ### Row lookup in the committed table -/

theorem findById_map_of_nodup (f : DairyEntry → DairyEntry)
    (hf : ∀ x, (f x).id = x.id) :
    ∀ (db : List DairyEntry), (db.map (fun e => e.id)).Nodup →
      ∀ e ∈ db, findById (db.map f) e.id = some (f e) := by
  intro db
  induction db with
  | nil => intro _ e he; cases he
  | cons h t ih =>
    intro hnd e he
    have hn' : (h.id :: t.map (fun x => x.id)).Nodup := hnd
    have hid : h.id ∉ t.map (fun x => x.id) := (List.nodup_cons.mp hn').1
    have hnt : (t.map (fun x => x.id)).Nodup := (List.nodup_cons.mp hn').2
    by_cases hcase : h.id = e.id
    · have heh : e = h := by
        rcases List.mem_cons.mp he with rfl | het
        · rfl
        · exact absurd (hcase ▸ List.mem_map_of_mem (fun x => x.id) het) hid
      subst heh
      unfold findById
      rw [List.map_cons, List.find?_cons_of_pos _ (by simp [hf])]
    · rcases List.mem_cons.mp he with rfl | het
      · exact absurd rfl hcase
      · unfold findById
        rw [List.map_cons, List.find?_cons_of_neg _ (by simp [hf, hcase])]
        exact ih hnt e het

theorem findById_clear_dues (db : List DairyEntry) (m : String) (a : Rat)
    (hnd : (db.map (fun e => e.id)).Nodup) (e : DairyEntry) (he : e ∈ db) :
    findById (clear_dues_post db m a) e.id
      = some (applyPayment e (appliedTo (settleLoop a (selectDueEntries db m)) e.id)) := by
  rw [clear_dues_post_eq_map]
  exact findById_map_of_nodup
    (fun e => applyPayment e (appliedTo (settleLoop a (selectDueEntries db m)) e.id))
    (fun _ => rfl) db hnd e he

/-! ### The spec-side settlement loop -/

theorem settleSpecLoop_length :
    ∀ (es : List DairyEntry) (a : Rat), (settleSpecLoop a es).1.length = es.length := by
  intro es
  induction es with
  | nil => intro a; rfl
  | cons e rest ih =>
    intro a
    by_cases ha : a ≤ 0
    · simp [settleSpecLoop, ha]
    · simp [settleSpecLoop, ha, ih]

theorem settleSpecLoop_getElem :
    ∀ (es : List DairyEntry), (∀ e ∈ es, 0 < e.due) →
      ∀ (a : Rat) (j : Nat) (hj : j < es.length)
        (hj2 : j < (settleSpecLoop a es).1.length),
        (settleSpecLoop a es).1[j]
          = applyPayment es[j] (min es[j].due (max 0 (a - duesBefore es j))) := by
  intro es
  induction es with
  | nil => intro _ a j hj; exact absurd hj (by simp)
  | cons e rest ih =>
    intro hd a j hj hj2
    have hd0 : (0:Rat) < e.due := hd e (List.mem_cons_self e rest)
    have hdr : ∀ f ∈ rest, (0:Rat) < f.due := fun f hf => hd f (List.mem_cons_of_mem _ hf)
    by_cases ha : a ≤ 0
    · have hS : 0 ≤ duesBefore (e :: rest) j :=
        duesBefore_nonneg _ (fun f hf => le_of_lt (hd f hf)) j
      have hpay : min (e :: rest)[j].due (max 0 (a - duesBefore (e :: rest) j)) = 0 := by
        rw [max_eq_left (by linarith)]
        exact min_eq_right (le_of_lt (hd _ (List.getElem_mem hj)))
      rw [hpay, applyPayment_zero]
      have hres : (settleSpecLoop a (e :: rest)).1 = e :: rest := by
        simp [settleSpecLoop, ha]
      simp only [hres]
    · have ha' : (0:Rat) < a := lt_of_not_le ha
      have hres : (settleSpecLoop a (e :: rest)).1
          = applyPayment e (min e.due a) :: (settleSpecLoop (a - min e.due a) rest).1 := by
        simp [settleSpecLoop, ha]
      cases j with
      | zero =>
        simp only [hres, List.getElem_cons_zero, duesBefore_zero, sub_zero,
          max_eq_right (le_of_lt ha')]
      | succ k =>
        have hk : k < rest.length := by simpa using hj
        have hk2 : k < (settleSpecLoop (a - min e.due a) rest).1.length := by
          rw [settleSpecLoop_length]
          exact hk
        simp only [hres, List.getElem_cons_succ]
        rw [ih hdr (a - min e.due a) k hk hk2, duesBefore_cons_succ]
        have hS : 0 ≤ duesBefore rest k :=
          duesBefore_nonneg _ (fun f hf => le_of_lt (hdr f hf)) k
        rcases le_total e.due a with hcase | hcase
        · rw [min_eq_left hcase]
          ring_nf
        · rw [min_eq_right hcase]
          have h1 : max 0 (a - a - duesBefore rest k) = 0 := max_eq_left (by linarith)
          have h2 : max 0 (a - (e.due + duesBefore rest k)) = 0 := max_eq_left (by linarith)
          rw [h1, h2]

/-! ### `order_by(created_at.desc()).first()` -/

theorem latestByCreated_of_ne_nil :
    ∀ (l : List DairyEntry), l ≠ [] → ∃ c, latestByCreated l = some c
  | [], h => absurd rfl h
  | e :: rest, _ => by
    cases hr : latestByCreated rest with
    | none => exact ⟨e, by simp [latestByCreated, hr]⟩
    | some c =>
      by_cases hlt : e.created_at < c.created_at
      · exact ⟨c, by simp [latestByCreated, hr, hlt]⟩
      · exact ⟨e, by simp [latestByCreated, hr, hlt]⟩

theorem latestByCreated_mem :
    ∀ {l : List DairyEntry} {c : DairyEntry}, latestByCreated l = some c → c ∈ l := by
  intro l
  induction l with
  | nil => intro c h; cases h
  | cons e rest ih =>
    intro c h
    simp only [latestByCreated] at h
    cases hr : latestByCreated rest with
    | none =>
      rw [hr] at h
      cases h
      exact List.mem_cons_self _ _
    | some b =>
      rw [hr] at h
      dsimp only at h
      by_cases hlt : e.created_at < b.created_at
      · rw [if_pos hlt] at h
        cases h
        exact List.mem_cons_of_mem _ (ih hr)
      · rw [if_neg hlt] at h
        cases h
        exact List.mem_cons_self _ _

theorem latestByCreated_le :
    ∀ {l : List DairyEntry} {c : DairyEntry}, latestByCreated l = some c →
      ∀ x ∈ l, x.created_at ≤ c.created_at := by
  intro l
  induction l with
  | nil => intro c _ x hx; cases hx
  | cons e rest ih =>
    intro c h x hx
    simp only [latestByCreated] at h
    cases hr : latestByCreated rest with
    | none =>
      have hrest : rest = [] := by
        by_contra hne
        obtain ⟨b, hb⟩ := latestByCreated_of_ne_nil rest hne
        rw [hb] at hr
        cases hr
      subst hrest
      rw [hr] at h
      cases h
      rcases List.mem_cons.mp hx with rfl | hx'
      · exact le_refl _
      · cases hx'
    | some b =>
      rw [hr] at h
      dsimp only at h
      by_cases hlt : e.created_at < b.created_at
      · rw [if_pos hlt] at h
        cases h
        rcases List.mem_cons.mp hx with rfl | hx'
        · exact le_of_lt hlt
        · exact ih hr x hx'
      · rw [if_neg hlt] at h
        cases h
        rcases List.mem_cons.mp hx with rfl | hx'
        · exact le_refl _
        · exact le_trans (ih hr x hx') (le_of_not_lt hlt)

theorem latestByCreated_eq_of_unique_max :
    ∀ {l : List DairyEntry} {p : DairyEntry}, p ∈ l →
      (∀ q ∈ l, q ≠ p → q.created_at < p.created_at) → latestByCreated l = some p := by
  intro l
  induction l with
  | nil => intro p hp; cases hp
  | cons e rest ih =>
    intro p hp hmax
    cases hr : latestByCreated rest with
    | none =>
      have hrest : rest = [] := by
        by_contra hne
        obtain ⟨b, hb⟩ := latestByCreated_of_ne_nil rest hne
        rw [hb] at hr
        cases hr
      subst hrest
      have hpe : p = e := by
        rcases List.mem_cons.mp hp with rfl | hx'
        · rfl
        · cases hx'
      subst hpe
      simp [latestByCreated]
    | some c =>
      have hcmem : c ∈ rest := latestByCreated_mem hr
      by_cases hep : e = p
      · subst hep
        by_cases hce : c = e
        · subst hce
          simp [latestByCreated, hr]
        · have hlt : c.created_at < e.created_at :=
            hmax c (List.mem_cons_of_mem _ hcmem) hce
          simp [latestByCreated, hr, not_lt_of_gt hlt]
      · have hpr : p ∈ rest := by
          rcases List.mem_cons.mp hp with rfl | h
          · exact absurd rfl hep
          · exact h
        have hrec : latestByCreated rest = some p :=
          ih hpr (fun q hq hqp => hmax q (List.mem_cons_of_mem _ hq) hqp)
        have hcp : c = p := by
          rw [hrec] at hr
          cases hr
          rfl
        subst hcp
        have hlt : e.created_at < c.created_at := hmax e (List.mem_cons_self _ _) hep
        simp [latestByCreated, hr, hlt]

/-! ### `func.max` over a group -/

theorem foldl_max_le_init : ∀ (ns : List Nat) (acc : Nat), acc ≤ ns.foldl max acc := by
  intro ns
  induction ns with
  | nil => intro acc; exact le_refl _
  | cons n t ih =>
    intro acc
    calc acc ≤ max acc n := le_max_left _ _
    _ ≤ t.foldl max (max acc n) := ih _

theorem le_foldl_max_of_mem :
    ∀ (ns : List Nat) (acc x : Nat), x ∈ ns → x ≤ ns.foldl max acc := by
  intro ns
  induction ns with
  | nil => intro acc x hx; cases hx
  | cons n t ih =>
    intro acc x hx
    rcases List.mem_cons.mp hx with rfl | hxt
    · calc x ≤ max acc x := le_max_right _ _
      _ ≤ t.foldl max (max acc x) := foldl_max_le_init _ _
    · exact ih _ x hxt

theorem foldl_max_mem :
    ∀ (ns : List Nat) (acc : Nat), ns.foldl max acc = acc ∨ ns.foldl max acc ∈ ns := by
  intro ns
  induction ns with
  | nil => intro acc; exact Or.inl rfl
  | cons n t ih =>
    intro acc
    rw [List.foldl_cons]
    rcases ih (max acc n) with h | h
    · rcases le_total acc n with hc | hc
      · refine Or.inr ?_
        rw [h, max_eq_right hc]
        exact List.mem_cons_self _ _
      · refine Or.inl ?_
        rw [h, max_eq_left hc]
    · exact Or.inr (List.mem_cons_of_mem _ h)

theorem latestCreatedFor_eq (db : List DairyEntry) (d : Int) (m i : String)
    (c : DairyEntry) (hc : latestByCreated (groupOn db d m i) = some c) :
    latestCreatedFor db d m i = c.created_at := by
  unfold latestCreatedFor
  apply le_antisymm
  · rcases foldl_max_mem ((groupOn db d m i).map (fun e => e.created_at)) 0 with h | h
    · rw [h]
      exact Nat.zero_le _
    · obtain ⟨x, hx, hxe⟩ := List.mem_map.mp h
      rw [← hxe]
      exact latestByCreated_le hc x hx
  · exact le_foldl_max_of_mem _ 0 _ (List.mem_map_of_mem _ (latestByCreated_mem hc))

/-! ### The grouped-join sum of the daily summary -/

theorem filter_eq_singleton_of_unique (l : List DairyEntry) (q : DairyEntry → Bool)
    (e : DairyEntry) (hnd : l.Nodup) (he : e ∈ l) (hqe : q e = true)
    (huniq : ∀ x ∈ l, q x = true → x = e) : l.filter q = [e] := by
  induction l with
  | nil => cases he
  | cons h t ih =>
    have hnd' := List.nodup_cons.mp hnd
    by_cases hqh : q h = true
    · have hhe : h = e := huniq h (List.mem_cons_self _ _) hqh
      subst hhe
      rw [List.filter_cons, if_pos hqh]
      have hnil : t.filter q = [] := by
        rw [List.filter_eq_nil_iff]
        intro x hx hqx
        have hxe : x = h := huniq x (List.mem_cons_of_mem _ hx) hqx
        exact hnd'.1 (hxe ▸ hx)
      rw [hnil]
    · rw [List.filter_cons, if_neg hqh]
      have het : e ∈ t := by
        rcases List.mem_cons.mp he with rfl | h'
        · exact absurd hqe hqh
        · exact h'
      exact ih hnd'.2 het (fun x hx hqx => huniq x (List.mem_cons_of_mem _ hx) hqx)

theorem sum_map_filter_or_split (l : List DairyEntry) (p q r : DairyEntry → Bool)
    (f : DairyEntry → Rat) (hdisj : ∀ x ∈ l, ¬(p x = true ∧ q x = true)) :
    ((l.filter (fun x => (p x || q x) && r x)).map f).sum
      = ((l.filter (fun x => p x && r x)).map f).sum
        + ((l.filter (fun x => q x && r x)).map f).sum := by
  induction l with
  | nil => simp
  | cons x t ih =>
    have hdx := hdisj x (List.mem_cons_self x t)
    have iht := ih (fun y hy => hdisj y (List.mem_cons_of_mem _ hy))
    cases hp : p x <;> cases hq : q x
    · cases hr : r x <;> simp [hp, hq, hr, iht]
    · cases hr : r x <;> simp [hp, hq, hr, iht] <;> ring
    · cases hr : r x <;> simp [hp, hq, hr, iht] <;> ring
    · exact absurd ⟨hp, hq⟩ hdx

theorem mem_groupOn {db : List DairyEntry} {d : Int} {m i : String} {e : DairyEntry} :
    e ∈ groupOn db d m i ↔ e ∈ db ∧ e.date = d ∧ e.m_name = m ∧ e.item = i := by
  simp [groupOn, List.mem_filter, and_assoc]

theorem join_sum_eq (db : List DairyEntry) (d : Int)
    (hca : (db.map (fun e => e.created_at)).Nodup) :
    ∀ (P : List (String × String)), P.Nodup →
      (∀ pr ∈ P, groupOn db d pr.1 pr.2 ≠ []) →
      ((db.filter (fun e => decide ((e.m_name, e.item) ∈ P) &&
          e.created_at == latestCreatedFor db d e.m_name e.item)).map (fun e => e.due)).sum
        = (P.map (fun pr => specLatestDueOnDate db d pr.1 pr.2)).sum := by
  intro P
  induction P with
  | nil =>
    intro _ _
    simp
  | cons pr P' ih =>
    intro hnd hne
    have hprP' : pr ∉ P' := (List.nodup_cons.mp hnd).1
    have hcongr : db.filter (fun e => decide ((e.m_name, e.item) ∈ pr :: P') &&
          e.created_at == latestCreatedFor db d e.m_name e.item)
        = db.filter (fun e =>
            (decide ((e.m_name, e.item) = pr) || decide ((e.m_name, e.item) ∈ P')) &&
            e.created_at == latestCreatedFor db d e.m_name e.item) := by
      refine List.filter_congr ?_
      intro x _
      by_cases h1 : (x.m_name, x.item) = pr <;> by_cases h2 : (x.m_name, x.item) ∈ P' <;>
        simp [h1, h2]
    rw [hcongr]
    rw [sum_map_filter_or_split db
      (fun e => decide ((e.m_name, e.item) = pr))
      (fun e => decide ((e.m_name, e.item) ∈ P'))
      (fun e => e.created_at == latestCreatedFor db d e.m_name e.item)
      (fun e => e.due)
      (by
        intro x _ hboth
        have h1 := of_decide_eq_true hboth.1
        have h2 := of_decide_eq_true hboth.2
        exact hprP' (h1 ▸ h2))]
    have hfirst : ((db.filter (fun e => decide ((e.m_name, e.item) = pr) &&
          e.created_at == latestCreatedFor db d e.m_name e.item)).map (fun e => e.due)).sum
        = specLatestDueOnDate db d pr.1 pr.2 := by
      obtain ⟨c, hc⟩ := latestByCreated_of_ne_nil _ (hne pr (List.mem_cons_self _ _))
      have hcprops := mem_groupOn.mp (latestByCreated_mem hc)
      have hL : latestCreatedFor db d pr.1 pr.2 = c.created_at :=
        latestCreatedFor_eq db d pr.1 pr.2 c hc
      have hsingle : db.filter (fun e => decide ((e.m_name, e.item) = pr) &&
            e.created_at == latestCreatedFor db d e.m_name e.item) = [c] := by
        refine filter_eq_singleton_of_unique db _ c
          (List.Nodup.of_map _ hca) hcprops.1 ?_ ?_
        · simp only [Bool.and_eq_true, decide_eq_true_eq, beq_iff_eq]
          refine ⟨by rw [hcprops.2.2.1, hcprops.2.2.2], ?_⟩
          rw [hcprops.2.2.1, hcprops.2.2.2, hL]
        · intro x hx hqx
          simp only [Bool.and_eq_true, decide_eq_true_eq, beq_iff_eq] at hqx
          have hxpair : (x.m_name, x.item) = pr := hqx.1
          have h1 : x.m_name = pr.1 := congrArg Prod.fst hxpair
          have h2 : x.item = pr.2 := congrArg Prod.snd hxpair
          have hxc : x.created_at = c.created_at := by
            rw [hqx.2, h1, h2, hL]
          exact List.inj_on_of_nodup_map hca hx hcprops.1 hxc
      rw [hsingle]
      simp only [List.map_cons, List.map_nil, List.sum_cons, List.sum_nil, add_zero]
      unfold specLatestDueOnDate
      rw [hc]
    rw [hfirst, ih (List.nodup_cons.mp hnd).2
      (fun q hq => hne q (List.mem_cons_of_mem _ hq))]
    simp

theorem latest_dues_eq_spec (db : List DairyEntry) (d : Int)
    (hca : (db.map (fun e => e.created_at)).Nodup) :
    latest_dues_for_day db d
      = ((pairsOnDate db d).map (fun pr => specLatestDueOnDate db d pr.1 pr.2)).sum := by
  unfold latest_dues_for_day
  refine join_sum_eq db d hca (pairsOnDate db d) (List.nodup_dedup _) ?_
  intro pr hpr
  obtain ⟨e, he, hpe⟩ := List.mem_map.mp (List.mem_dedup.mp hpr)
  have hm := List.mem_filter.mp he
  have hdate : e.date = d := by simpa using hm.2
  intro hnil
  have hgroup : e ∈ groupOn db d pr.1 pr.2 :=
    mem_groupOn.mpr ⟨hm.1, hdate, by rw [← hpe], by rw [← hpe]⟩
  rw [hnil] at hgroup
  cases hgroup

/-! ## The claims -/

/-- C1: a new entry for `(m, i)` on date `D` with cost `ppu * w` and paid `pd`
stores due `prevDue + cost - pd`, where `prevDue` is the `due` of the entry
for the same `(m, i)` dated exactly `D - 1` with the latest `created_at`, and
`prevDue = 0` when no such prior-day entry exists, so a gap of two or more
days yields `due = cost - pd` exactly. -/
theorem add_entry_carry_forward (db : List DairyEntry) (D : Int) (m i : String)
    (w : Rat) (u : String) (ppu pd : Rat) (nid now : Nat) :
    (∀ p, isLatestPrior db D m i p →
      ((add_dairy_entry db D m i w u ppu pd nid now).getLast?.map (fun e => e.due))
        = some ((p.due + ppu * w) - pd)) ∧
    ((∀ q ∈ db, ¬(q.date = D - 1 ∧ q.m_name = m ∧ q.item = i)) →
      ((add_dairy_entry db D m i w u ppu pd nid now).getLast?.map (fun e => e.due))
        = some (ppu * w - pd)) := by
  have hlast : (add_dairy_entry db D m i w u ppu pd nid now).getLast?
      = some { id := nid, date := D, m_name := m, item := i, weight := w, unit := u,
               price_per_unit := ppu, cost := ppu * w, paid := pd,
               due := (get_previous_dairy_due db D m i + ppu * w) - pd,
               created_at := now } := by
    unfold add_dairy_entry
    exact List.getLast?_concat _
  constructor
  · intro p hp
    have hprev : get_previous_dairy_due db D m i = p.due := by
      unfold get_previous_dairy_due
      rw [latestByCreated_eq_of_unique_max hp.1 hp.2]
    rw [hlast, hprev]
    rfl
  · intro hq
    have hgroup : groupOn db (D - 1) m i = [] := by
      rw [groupOn, List.filter_eq_nil_iff]
      intro q hqdb hpred
      simp only [Bool.and_eq_true, beq_iff_eq] at hpred
      exact hq q hqdb ⟨hpred.1.1, hpred.1.2, hpred.2⟩
    have hprev : get_previous_dairy_due db D m i = 0 := by
      unfold get_previous_dairy_due
      rw [hgroup]
      rfl
    rw [hlast, hprev]
    simp

/-- Witness for C1: in `dbW`, day 2's entry carries day 1's due of 10, and an
entry on day 4 (a two-day gap) carries no prior due. -/
theorem add_entry_carry_forward_witness :
    isLatestPrior dbW 2 "A" "Milk" entryW1 ∧
    ((add_dairy_entry dbW 2 "A" "Milk" 1 "kg" 60 40 3 9).getLast?.map (fun e => e.due))
      = some ((entryW1.due + 60 * 1) - 40) ∧
    (∀ q ∈ dbW, ¬(q.date = 4 - 1 ∧ q.m_name = "A" ∧ q.item = "Milk")) ∧
    ((add_dairy_entry dbW 4 "A" "Milk" 1 "kg" 60 40 3 9).getLast?.map (fun e => e.due))
      = some (60 * 1 - 40) :=
  ⟨by decide,
   (add_entry_carry_forward dbW 2 "A" "Milk" 1 "kg" 60 40 3 9).1 entryW1 (by decide),
   by decide,
   (add_entry_carry_forward dbW 4 "A" "Milk" 1 "kg" 60 40 3 9).2 (by decide)⟩

/-- C2: settlement selects exactly the merchant's rows with `due > 0`
ordered ascending by date, and processes them in that order exactly as the
spec's loop does: `pay = min(due, remaining)`, `paid += pay`, `due -= pay`,
`remaining -= pay`, stopping when `remaining ≤ 0` or the rows run out. -/
theorem clear_dues_matches_spec_loop (db : List DairyEntry) (m : String) (a : Rat)
    (hnd : (db.map (fun e => e.id)).Nodup) :
    (selectDueEntries db m).Perm
        (db.filter (fun e => e.m_name == m && decide (0 < e.due))) ∧
    List.Sorted dateLe (selectDueEntries db m) ∧
    (settleSpecLoop a (selectDueEntries db m)).1.length
        = (selectDueEntries db m).length ∧
    (∀ j, ∀ hj : j < (selectDueEntries db m).length,
      ∀ hj2 : j < (settleSpecLoop a (selectDueEntries db m)).1.length,
      findById (clear_dues_post db m a) (selectDueEntries db m)[j].id
        = some ((settleSpecLoop a (selectDueEntries db m)).1[j])) := by
  refine ⟨selectDueEntries_perm db m, selectDueEntries_sorted db m,
    settleSpecLoop_length _ _, ?_⟩
  intro j hj hj2
  have hmem : (selectDueEntries db m)[j] ∈ selectDueEntries db m := List.getElem_mem hj
  have hdb : (selectDueEntries db m)[j] ∈ db := (mem_selectDueEntries.mp hmem).1
  rw [findById_clear_dues db m a hnd _ hdb]
  rw [settleSpecLoop_getElem (selectDueEntries db m) selectDueEntries_due_pos a j hj hj2]
  rw [appliedTo_settleLoop (selectDueEntries db m) selectDueEntries_due_pos
    (selectDueEntries_ids_nodup hnd) a j hj]

/-- Witness for C2 at the spec's example: dues 10 and 30, payment 25. -/
theorem clear_dues_matches_spec_loop_witness :
    (dbW.map (fun e => e.id)).Nodup ∧
    ((selectDueEntries dbW "A").Perm
        (dbW.filter (fun e => e.m_name == "A" && decide (0 < e.due))) ∧
     List.Sorted dateLe (selectDueEntries dbW "A") ∧
     (settleSpecLoop 25 (selectDueEntries dbW "A")).1.length
        = (selectDueEntries dbW "A").length ∧
     (∀ j, ∀ hj : j < (selectDueEntries dbW "A").length,
       ∀ hj2 : j < (settleSpecLoop 25 (selectDueEntries dbW "A")).1.length,
       findById (clear_dues_post dbW "A" 25) (selectDueEntries dbW "A")[j].id
         = some ((settleSpecLoop 25 (selectDueEntries dbW "A")).1[j]))) :=
  ⟨by decide, clear_dues_matches_spec_loop dbW "A" 25 (by decide)⟩

/-- C3: for a payment `P` with `0 ≤ P ≤ T` (the merchant's total outstanding
due), settlement leaves total due `T - P`, fully zeroing the oldest selected
rows in order: for some cut `k`, every earlier row ends with due 0, the row
at `k` ends between 0 and its prior due (the at-most-one partial row), and
every later row is untouched. -/
theorem settle_absorbs_payment_oldest_first (db : List DairyEntry) (m : String)
    (P : Rat) (hnd : (db.map (fun e => e.id)).Nodup) (h0 : 0 ≤ P)
    (hPT : P ≤ totalDue db m) :
    totalDue (clear_dues_post db m P) m = totalDue db m - P ∧
    ∃ k, ∀ j, ∀ hj : j < (selectDueEntries db m).length,
      (j < k → ((findById (clear_dues_post db m P) (selectDueEntries db m)[j].id).map
          (fun e => e.due)) = some 0) ∧
      (j = k → ∃ dres,
        ((findById (clear_dues_post db m P) (selectDueEntries db m)[j].id).map
          (fun e => e.due)) = some dres ∧ 0 ≤ dres ∧
            dres ≤ (selectDueEntries db m)[j].due) ∧
      (k < j → findById (clear_dues_post db m P) (selectDueEntries db m)[j].id
          = some (selectDueEntries db m)[j]) := by
  constructor
  · rw [totalDue_settle db m P hnd h0, min_eq_left hPT]
  · obtain ⟨k, hk⟩ := settleLoop_structure (selectDueEntries db m)
      selectDueEntries_due_pos (selectDueEntries_ids_nodup hnd) P
    refine ⟨k, ?_⟩
    intro j hj
    have hmem : (selectDueEntries db m)[j] ∈ selectDueEntries db m := List.getElem_mem hj
    have hdb : (selectDueEntries db m)[j] ∈ db := (mem_selectDueEntries.mp hmem).1
    have hfind := findById_clear_dues db m P hnd _ hdb
    have hb := appliedTo_bounds hnd hmem P
    refine ⟨?_, ?_, ?_⟩
    · intro hjk
      rw [hfind]
      have hfull := (hk j hj).1 hjk
      show some ((selectDueEntries db m)[j].due - _) = some 0
      rw [hfull, sub_self]
    · intro _
      refine ⟨(selectDueEntries db m)[j].due
        - appliedTo (settleLoop P (selectDueEntries db m)) (selectDueEntries db m)[j].id,
        ?_, ?_, ?_⟩
      · rw [hfind]
        rfl
      · linarith [hb.2]
      · linarith [hb.1]
    · intro hkj
      rw [hfind, (hk j hj).2 hkj, applyPayment_zero]

theorem totalDue_dbW : totalDue dbW "A" = 40 := by
  norm_num [totalDue, dbW, entryW1, entryW2]

/-- Witness for C3: the spec's example, dues 10 and 30 with payment 25. -/
theorem settle_absorbs_payment_oldest_first_witness :
    (dbW.map (fun e => e.id)).Nodup ∧ (0:Rat) ≤ 25 ∧ (25:Rat) ≤ totalDue dbW "A" ∧
    (totalDue (clear_dues_post dbW "A" 25) "A" = totalDue dbW "A" - 25 ∧
     ∃ k, ∀ j, ∀ hj : j < (selectDueEntries dbW "A").length,
       (j < k → ((findById (clear_dues_post dbW "A" 25) (selectDueEntries dbW "A")[j].id).map
           (fun e => e.due)) = some 0) ∧
       (j = k → ∃ dres,
         ((findById (clear_dues_post dbW "A" 25) (selectDueEntries dbW "A")[j].id).map
           (fun e => e.due)) = some dres ∧ 0 ≤ dres ∧
             dres ≤ (selectDueEntries dbW "A")[j].due) ∧
       (k < j → findById (clear_dues_post dbW "A" 25) (selectDueEntries dbW "A")[j].id
           = some (selectDueEntries dbW "A")[j])) :=
  ⟨by decide, by decide, le_of_le_of_eq (by decide : (25:Rat) ≤ 40) totalDue_dbW.symm,
   settle_absorbs_payment_oldest_first dbW "A" 25 (by decide) (by decide)
     (le_of_le_of_eq (by decide : (25:Rat) ≤ 40) totalDue_dbW.symm)⟩

/-- C4 counterexample: the claim's gloss "after settle, each entry's due is
between 0 and its prior due inclusive" fails on a ledger holding a row whose
due is already negative: settlement leaves it negative. -/
theorem settle_due_nonneg_counterexample :
    ∃ e ∈ clear_dues_post dbNeg "A" 1, e.due < 0 := by decide

/-- C4 amended: for every merchant and non-negative payment, settlement never
increases any row's due, and keeps every row's due nonnegative whenever its
prior due was nonnegative (rows with negative due are not selected and stay
unchanged). -/
theorem settle_due_bounds (db : List DairyEntry) (m : String) (a : Rat)
    (hnd : (db.map (fun e => e.id)).Nodup) (h0 : 0 ≤ a) :
    ∀ j, ∀ hj : j < db.length, ∀ hj2 : j < (clear_dues_post db m a).length,
      (clear_dues_post db m a)[j].due ≤ db[j].due ∧
      (0 ≤ db[j].due → 0 ≤ (clear_dues_post db m a)[j].due) := by
  intro j hj hj2
  rw [clear_dues_post_getElem db m a j hj hj2]
  by_cases hsel : db[j].m_name = m ∧ 0 < db[j].due
  · have hmem : db[j] ∈ selectDueEntries db m :=
      mem_selectDueEntries.mpr ⟨List.getElem_mem hj, hsel.1, hsel.2⟩
    have hb := appliedTo_bounds hnd hmem a
    constructor
    · show db[j].due - _ ≤ db[j].due
      linarith [hb.1]
    · intro _
      show (0:Rat) ≤ db[j].due - _
      linarith [hb.2]
  · rw [appliedTo_eq_zero_of_not_selected hnd (List.getElem_mem hj) hsel a,
      applyPayment_zero]
    exact ⟨le_refl _, fun h => h⟩

/-- Witness for C4's amended claim on the example ledger. -/
theorem settle_due_bounds_witness :
    (dbW.map (fun e => e.id)).Nodup ∧ (0:Rat) ≤ 25 ∧
    (∀ j, ∀ hj : j < dbW.length, ∀ hj2 : j < (clear_dues_post dbW "A" 25).length,
      (clear_dues_post dbW "A" 25)[j].due ≤ dbW[j].due ∧
      (0 ≤ dbW[j].due → 0 ≤ (clear_dues_post dbW "A" 25)[j].due)) :=
  ⟨by decide, by decide, settle_due_bounds dbW "A" 25 (by decide) (by decide)⟩

/-- C5: on a report date with at least one entry, the summary returns
`totalCost` and `totalPaid` as sums over that date's entries, `profitLoss`
as income minus `totalCost`, and `totalDuesToday` as the sum over distinct
`(merchant, item)` pairs of the due of that pair's latest-created entry of
the date — not the sum of due over all entries. -/
theorem daily_summary_aggregates (db : List DairyEntry) (d : Int) (inc : Rat)
    (hne : entriesOn db d ≠ [])
    (hca : (db.map (fun e => e.created_at)).Nodup) :
    (dairy_daily_summary db d inc).1 = some
      { date := d,
        total_cost_dairy := ((entriesOn db d).map (fun e => e.cost)).sum,
        total_paid_dairy := ((entriesOn db d).map (fun e => e.paid)).sum,
        total_cash_income := inc,
        profit_loss := inc - ((entriesOn db d).map (fun e => e.cost)).sum,
        total_dues_today :=
          ((pairsOnDate db d).map (fun pr => specLatestDueOnDate db d pr.1 pr.2)).sum } := by
  unfold dairy_daily_summary
  rw [if_neg (by simpa [List.isEmpty_iff] using hne)]
  rw [← latest_dues_eq_spec db d hca]

/-- Witness for C5 on `dbS`: two superseding ("A", "Milk") rows and one
("B", "Curd") row on day 1. -/
theorem daily_summary_aggregates_witness :
    entriesOn dbS 1 ≠ [] ∧ (dbS.map (fun e => e.created_at)).Nodup ∧
    (dairy_daily_summary dbS 1 200).1 = some
      { date := 1,
        total_cost_dairy := ((entriesOn dbS 1).map (fun e => e.cost)).sum,
        total_paid_dairy := ((entriesOn dbS 1).map (fun e => e.paid)).sum,
        total_cash_income := 200,
        profit_loss := 200 - ((entriesOn dbS 1).map (fun e => e.cost)).sum,
        total_dues_today :=
          ((pairsOnDate dbS 1).map (fun pr => specLatestDueOnDate dbS 1 pr.1 pr.2)).sum } :=
  ⟨by decide, by decide, daily_summary_aggregates dbS 1 200 (by decide) (by decide)⟩

/-- C6: on a report date with no entries the summary returns the no-data
result — `none` with an info flash — which is distinct from every
zero-valued (or other) report, and no error is raised. -/
theorem daily_summary_no_data (db : List DairyEntry) (d : Int) (inc : Rat)
    (h : entriesOn db d = []) :
    (dairy_daily_summary db d inc).1 = none ∧
    (dairy_daily_summary db d inc).2
      = ⟨FlashMsg.noEntriesFound d, FlashCategory.info⟩ ∧
    ∀ r : DairyReport, (dairy_daily_summary db d inc).1 ≠ some r := by
  have hif : (entriesOn db d).isEmpty = true := by simp [List.isEmpty_iff, h]
  unfold dairy_daily_summary
  rw [if_pos hif]
  exact ⟨rfl, rfl, fun r hr => Option.noConfusion hr⟩

/-- Witness for C6: the example ledger has no entry on day 9. -/
theorem daily_summary_no_data_witness :
    entriesOn dbW 9 = [] ∧
    ((dairy_daily_summary dbW 9 100).1 = none ∧
     (dairy_daily_summary dbW 9 100).2
       = ⟨FlashMsg.noEntriesFound 9, FlashCategory.info⟩ ∧
     ∀ r : DairyReport, (dairy_daily_summary dbW 9 100).1 ≠ some r) :=
  ⟨by decide, daily_summary_no_data dbW 9 100 (by decide)⟩

/-- C7: a payment strictly greater than the merchant's total outstanding due
raises no error: every row of the merchant with positive due ends at due 0,
total due ends at 0, and the leftover is reported nowhere — the response is
the same as for any other amount. -/
theorem settle_overpayment_clears_all (db : List DairyEntry) (m : String) (a : Rat)
    (hnd : (db.map (fun e => e.id)).Nodup) (hover : totalDue db m < a) :
    (∀ j, ∀ hj : j < db.length, ∀ hj2 : j < (clear_dues_post db m a).length,
       db[j].m_name = m → 0 < db[j].due → (clear_dues_post db m a)[j].due = 0) ∧
    totalDue (clear_dues_post db m a) m = 0 ∧
    (clear_dues db m a).2 = (clear_dues db m 0).2 := by
  have ha : (0:Rat) ≤ a := le_trans (totalDue_nonneg db m) (le_of_lt hover)
  refine ⟨?_, ?_, rfl⟩
  · intro j hj hj2 hm hdue
    rw [clear_dues_post_getElem db m a j hj hj2]
    have hmem : db[j] ∈ selectDueEntries db m :=
      mem_selectDueEntries.mpr ⟨List.getElem_mem hj, hm, hdue⟩
    obtain ⟨jj, hjj, hget⟩ := List.getElem_of_mem hmem
    have hfull : duesBefore (selectDueEntries db m) (jj + 1) ≤ a := by
      refine le_trans (duesBefore_le_sum _
        (fun e he => le_of_lt (selectDueEntries_due_pos e he)) _) ?_
      rw [← totalDue_eq_sum_select]
      exact le_of_lt hover
    have happ := appliedTo_full (selectDueEntries db m) selectDueEntries_due_pos
      (selectDueEntries_ids_nodup hnd) a jj hjj hfull
    rw [hget] at happ
    show db[j].due - _ = 0
    rw [happ, sub_self]
  · rw [totalDue_settle db m a hnd ha, min_eq_right (le_of_lt hover), sub_self]

/-- Witness for C7: payment 100 against total due 40. -/
theorem settle_overpayment_clears_all_witness :
    (dbW.map (fun e => e.id)).Nodup ∧ totalDue dbW "A" < 100 ∧
    ((∀ j, ∀ hj : j < dbW.length, ∀ hj2 : j < (clear_dues_post dbW "A" 100).length,
        dbW[j].m_name = "A" → 0 < dbW[j].due → (clear_dues_post dbW "A" 100)[j].due = 0) ∧
     totalDue (clear_dues_post dbW "A" 100) "A" = 0 ∧
     (clear_dues dbW "A" 100).2 = (clear_dues dbW "A" 0).2) :=
  ⟨by decide, lt_of_eq_of_lt totalDue_dbW (by decide),
   settle_overpayment_clears_all dbW "A" 100 (by decide)
     (lt_of_eq_of_lt totalDue_dbW (by decide))⟩

/-- C8 counterexample: the settle route's return value beyond the mutated
table is identical for two ledgers on which the amounts applied per entry
differ (3 versus 5 to row 1), so it cannot record the per-entry applied
amounts the claim says it returns. -/
theorem clear_dues_no_audit_counterexample :
    (clear_dues db81 "A" 5).2 = (clear_dues db82 "A" 5).2 ∧
    settleLoop 5 (selectDueEntries db81 "A")
      ≠ settleLoop 5 (selectDueEntries db82 "A") :=
  ⟨rfl, by decide⟩

/-- C8 amended: the settle route mutates the persisted rows in place but
returns no per-entry applied amounts — beyond the new table state it returns
only a flash and redirect that depend on nothing but the merchant name. -/
theorem clear_dues_response_merchant_only (db₁ db₂ : List DairyEntry) (m : String)
    (a₁ a₂ : Rat) : (clear_dues db₁ m a₁).2 = (clear_dues db₂ m a₂).2 := rfl

/-- C9: settlement modifies only `paid` and `due`, and only on rows of the
given merchant that had `due > 0`; every other field of every row is
unchanged, rows of other merchants or with `due ≤ 0` are unchanged entirely,
and no row is created or deleted. -/
theorem settle_frame (db : List DairyEntry) (m : String) (a : Rat)
    (hnd : (db.map (fun e => e.id)).Nodup) :
    (clear_dues_post db m a).length = db.length ∧
    ∀ j, ∀ hj : j < db.length, ∀ hj2 : j < (clear_dues_post db m a).length,
      ((clear_dues_post db m a)[j].id = db[j].id ∧
       (clear_dues_post db m a)[j].date = db[j].date ∧
       (clear_dues_post db m a)[j].m_name = db[j].m_name ∧
       (clear_dues_post db m a)[j].item = db[j].item ∧
       (clear_dues_post db m a)[j].weight = db[j].weight ∧
       (clear_dues_post db m a)[j].unit = db[j].unit ∧
       (clear_dues_post db m a)[j].price_per_unit = db[j].price_per_unit ∧
       (clear_dues_post db m a)[j].cost = db[j].cost ∧
       (clear_dues_post db m a)[j].created_at = db[j].created_at) ∧
      (¬(db[j].m_name = m ∧ 0 < db[j].due) → (clear_dues_post db m a)[j] = db[j]) := by
  refine ⟨clear_dues_post_length db m a, ?_⟩
  intro j hj hj2
  rw [clear_dues_post_getElem db m a j hj hj2]
  refine ⟨⟨rfl, rfl, rfl, rfl, rfl, rfl, rfl, rfl, rfl⟩, ?_⟩
  intro hns
  rw [appliedTo_eq_zero_of_not_selected hnd (List.getElem_mem hj) hns a,
    applyPayment_zero]

/-- Witness for C9 on the example ledger with payment 25. -/
theorem settle_frame_witness :
    (dbW.map (fun e => e.id)).Nodup ∧
    ((clear_dues_post dbW "A" 25).length = dbW.length ∧
     ∀ j, ∀ hj : j < dbW.length, ∀ hj2 : j < (clear_dues_post dbW "A" 25).length,
       ((clear_dues_post dbW "A" 25)[j].id = dbW[j].id ∧
        (clear_dues_post dbW "A" 25)[j].date = dbW[j].date ∧
        (clear_dues_post dbW "A" 25)[j].m_name = dbW[j].m_name ∧
        (clear_dues_post dbW "A" 25)[j].item = dbW[j].item ∧
        (clear_dues_post dbW "A" 25)[j].weight = dbW[j].weight ∧
        (clear_dues_post dbW "A" 25)[j].unit = dbW[j].unit ∧
        (clear_dues_post dbW "A" 25)[j].price_per_unit = dbW[j].price_per_unit ∧
        (clear_dues_post dbW "A" 25)[j].cost = dbW[j].cost ∧
        (clear_dues_post dbW "A" 25)[j].created_at = dbW[j].created_at) ∧
       (¬(dbW[j].m_name = "A" ∧ 0 < dbW[j].due) →
         (clear_dues_post dbW "A" 25)[j] = dbW[j])) :=
  ⟨by decide, settle_frame dbW "A" 25 (by decide)⟩

/-- C10: a strictly negative payment is a silent no-op: the loop exits
before touching the first row, the table is unchanged, and no error is
raised — the route still returns its success flash and redirect. -/
theorem settle_negative_noop (db : List DairyEntry) (m : String) (a : Rat)
    (ha : a < 0) :
    clear_dues_post db m a = db ∧
    (clear_dues db m a).1 = db ∧
    (clear_dues db m a).2
      = (⟨FlashMsg.duesUpdated m, FlashCategory.success⟩, "clear_dues") := by
  have h1 : clear_dues_post db m a = db := by
    rw [clear_dues_post, settleLoop_nonpos (le_of_lt ha)]
    unfold applyPays
    simp
  exact ⟨h1, h1, rfl⟩

/-- Witness for C10: payment `-1` leaves the example ledger untouched. -/
theorem settle_negative_noop_witness :
    (-1 : Rat) < 0 ∧
    (clear_dues_post dbW "A" (-1) = dbW ∧
     (clear_dues dbW "A" (-1)).1 = dbW ∧
     (clear_dues dbW "A" (-1)).2
       = (⟨FlashMsg.duesUpdated "A", FlashCategory.success⟩, "clear_dues")) :=
  ⟨by decide, settle_negative_noop dbW "A" (-1) (by decide)⟩

end MatriDairies
